import Mathlib

/-!
Shallow embedding of `src/blob_corruption_checker.rs` from the
CodSpeedHQ eurorust-2025 workshop repository.

Blobs (the contents of the reference and corrupted files) are modelled as
`List Nat` of byte values.  File reads are modelled as returning
`min chunk_size remaining` bytes until end of file.  A Rust panic
(failed `unwrap`, out-of-range slice, `step_by(0)` assertion) is modelled
by returning `none`; a normal return of a `Vec<Corruption>` is `some`.
-/

/-- The `Corruption` record from the source: a byte range
`[offset, offset+length)` that differs between the two blobs. -/
structure Corruption where
  offset : Nat
  length : Nat
deriving DecidableEq, Repr

/-- The accumulator update of `find_corruptions_sequential` (lines 38-58):
either extend the most recent corruption when the new corrupted chunk starts
exactly at its end, or push a fresh record.  The accumulator is kept in
reverse order (most recent record first) so that the source's
`corruptions.last_mut()` is the head. -/
def pushCorruption (corruptions : List Corruption) (offset n : Nat) :
    List Corruption :=
  match corruptions with
  | last :: rest =>
    if last.offset + last.length = offset then
      { offset := last.offset, length := last.length + n } :: rest
    else
      { offset := offset, length := n } :: last :: rest
  | [] => [{ offset := offset, length := n }]

/-- The main loop of `find_corruptions_sequential` (lines 29-61).
`refRem`/`corruptRem` are the unread suffixes of the two files.  Each
iteration reads `n = min chunk_size remaining` bytes of the reference
(`n = 0` means end of file or a zero-sized buffer: the loop breaks), then
`read_exact`s `n` bytes of the corrupted file (panic -- `none` -- when
fewer than `n` bytes remain), compares the two chunks and merges. -/
def seqGo (chunkSize : Nat) (refRem corruptRem : List Nat) (offset : Nat)
    (corruptions : List Corruption) : Option (List Corruption) :=
  if _hn : min chunkSize refRem.length = 0 then
    some corruptions.reverse
  else if corruptRem.length < min chunkSize refRem.length then
    none
  else
    seqGo chunkSize
      (refRem.drop (min chunkSize refRem.length))
      (corruptRem.drop (min chunkSize refRem.length))
      (offset + min chunkSize refRem.length)
      (if refRem.take (min chunkSize refRem.length)
          ≠ corruptRem.take (min chunkSize refRem.length) then
        pushCorruption corruptions offset (min chunkSize refRem.length)
      else corruptions)
termination_by refRem.length
decreasing_by simp only [List.length_drop]; omega

/-- `find_corruptions_sequential` (lines 15-64). -/
def findCorruptionsSequential (refBlob corruptBlob : List Nat)
    (chunkSize : Nat) : Option (List Corruption) :=
  seqGo chunkSize refBlob corruptBlob 0 []

/-- The chunk start offsets `(0..file_len).step_by(chunk_size)`
(line 81).  Only meaningful for `chunkSize > 0` (`step_by(0)` panics,
which the callers model separately). -/
def chunkOffsets (fileLen chunkSize : Nat) : List Nat :=
  List.range' 0 ((fileLen + chunkSize - 1) / chunkSize) chunkSize

/-- The slice `blob[offset..endIdx]` of a memory-mapped file. -/
def chunkSlice (blob : List Nat) (offset endIdx : Nat) : List Nat :=
  (blob.drop offset).take (endIdx - offset)

/-- One iteration of the parallel map (lines 85-89): compare
`ref_mmap[offset..end]` with `corrupt_mmap[offset..end]` where
`end = min (offset + chunk_size) file_len` and `file_len` is the length of
the reference mapping.  Slicing the corrupted mapping panics (`none`) when
`end` exceeds its length.  Returns `(offset, !matches)`. -/
def chunkMismatch (refBlob corruptBlob : List Nat) (chunkSize offset : Nat) :
    Option (Nat × Bool) :=
  if min (offset + chunkSize) refBlob.length ≤ corruptBlob.length then
    some (offset,
      decide (chunkSlice refBlob offset (min (offset + chunkSize) refBlob.length)
        ≠ chunkSlice corruptBlob offset (min (offset + chunkSize) refBlob.length)))
  else
    none

/-- The `collect` of the (parallel) map into `Vec<(usize, bool)>`: the
whole collection panics as soon as any chunk comparison panics. -/
def collectChunks (f : Nat → Option (Nat × Bool)) :
    List Nat → Option (List (Nat × Bool))
  | [] => some []
  | o :: os =>
    match f o, collectChunks f os with
    | some v, some vs => some (v :: vs)
    | _, _ => none

/-- The defensive `chunk_mismatches.sort_by_key(|(offset, _)| *offset)`
(line 93), modelled as a stable insertion sort on the offset key. -/
def sortMismatches (ms : List (Nat × Bool)) : List (Nat × Bool) :=
  List.insertionSort (fun a b => a.1 ≤ b.1) ms

/-- One step of the merge loop of `find_corruptions_parallel`
(lines 99-124): state is `(corruptions, current_corruption)`. -/
def mergeStep (fileLen chunkSize : Nat)
    (st : List Corruption × Option Corruption) (v : Nat × Bool) :
    List Corruption × Option Corruption :=
  if v.2 then
    match st.2 with
    | some cur =>
      if cur.offset + cur.length = v.1 then
        (st.1, some ⟨cur.offset, cur.length + (min (v.1 + chunkSize) fileLen - v.1)⟩)
      else
        (st.1 ++ [cur], some ⟨v.1, min (v.1 + chunkSize) fileLen - v.1⟩)
    | none =>
      (st.1, some ⟨v.1, min (v.1 + chunkSize) fileLen - v.1⟩)
  else st

/-- The merge loop (lines 96-129): fold `mergeStep` over the per-chunk
verdicts, then push the still-open record. -/
def mergeMismatches (fileLen chunkSize : Nat) (ms : List (Nat × Bool)) :
    List Corruption :=
  let st := ms.foldl (mergeStep fileLen chunkSize) ([], none)
  st.1 ++ st.2.toList

/-- Everything `find_corruptions_parallel` does after the parallel map has
produced the collected `(offset, is_corrupted)` vector: sort by offset,
then merge (lines 92-131). -/
def mergeCollected (fileLen chunkSize : Nat) (ms : List (Nat × Bool)) :
    List Corruption :=
  mergeMismatches fileLen chunkSize (sortMismatches ms)

/-- `find_corruptions_parallel` (lines 66-132).  `step_by(0)` asserts,
i.e. `chunk_size = 0` panics before any comparison. -/
def findCorruptionsParallel (refBlob corruptBlob : List Nat)
    (chunkSize : Nat) : Option (List Corruption) :=
  if chunkSize = 0 then none
  else
    (collectChunks (chunkMismatch refBlob corruptBlob chunkSize)
        (chunkOffsets refBlob.length chunkSize)).map
      (mergeCollected refBlob.length chunkSize)

/-- The `while offset < simd_len` loop of `chunks_equal_simd`
(lines 147-156) followed by the trailing scalar comparison (line 159).
The lane-block `simd_ne ... any` test is list inequality of the two
`lanes`-byte blocks.  The `0 < lanes` guard only makes the recursion
well-founded; Rust lane counts are always positive, and for `lanes = 0`
`simdLen` is `0` so the guard never fires. -/
def simdLoop (lanes : Nat) (a b : List Nat) (simdLen offset : Nat) : Bool :=
  if _h2 : offset < simdLen ∧ 0 < lanes then
    if (a.drop offset).take lanes ≠ (b.drop offset).take lanes then
      false
    else
      simdLoop lanes a b simdLen (offset + lanes)
  else
    decide (a.drop offset = b.drop offset)
termination_by simdLen - offset
decreasing_by omega

/-- `chunks_equal_simd::<LANES>` (lines 135-160). -/
def chunksEqualSimd (lanes : Nat) (a b : List Nat) : Bool :=
  if a.length ≠ b.length then
    false
  else
    simdLoop lanes a b (a.length - a.length % lanes) 0

/-- One iteration of the map of `find_corruptions_simd` (lines 179-183):
like `chunkMismatch` but the comparison goes through
`chunks_equal_simd::<64>`. -/
def chunkMismatchSimd (refBlob corruptBlob : List Nat)
    (chunkSize offset : Nat) : Option (Nat × Bool) :=
  if min (offset + chunkSize) refBlob.length ≤ corruptBlob.length then
    some (offset,
      !chunksEqualSimd 64
        (chunkSlice refBlob offset (min (offset + chunkSize) refBlob.length))
        (chunkSlice corruptBlob offset (min (offset + chunkSize) refBlob.length)))
  else
    none

/-- `find_corruptions_simd` (lines 162-225). -/
def findCorruptionsSimd (refBlob corruptBlob : List Nat)
    (chunkSize : Nat) : Option (List Corruption) :=
  if chunkSize = 0 then none
  else
    (collectChunks (chunkMismatchSimd refBlob corruptBlob chunkSize)
        (chunkOffsets refBlob.length chunkSize)).map
      (mergeCollected refBlob.length chunkSize)

/-- `find_corruptions_simd_parallel` (lines 227-292); identical to
`find_corruptions_simd` except that the map runs under `par_iter`, which
does not change the collected vector. -/
def findCorruptionsSimdParallel (refBlob corruptBlob : List Nat)
    (chunkSize : Nat) : Option (List Corruption) :=
  if chunkSize = 0 then none
  else
    (collectChunks (chunkMismatchSimd refBlob corruptBlob chunkSize)
        (chunkOffsets refBlob.length chunkSize)).map
      (mergeCollected refBlob.length chunkSize)

/-! Proof-internal abstraction: the merge loop over explicit
`(offset, chunkLen, isCorrupted)` verdict triples, which both the
sequential loop and the mmap variants refine. -/

/-- Merge step over a verdict triple. -/
def runMergeStep (st : List Corruption × Option Corruption)
    (v : Nat × Nat × Bool) : List Corruption × Option Corruption :=
  if v.2.2 then
    match st.2 with
    | some cur =>
      if cur.offset + cur.length = v.1 then
        (st.1, some { offset := cur.offset, length := cur.length + v.2.1 })
      else
        (st.1 ++ [cur], some { offset := v.1, length := v.2.1 })
    | none => (st.1, some { offset := v.1, length := v.2.1 })
  else st

/-- Fold of `runMergeStep`. -/
def runMerge (st : List Corruption × Option Corruption)
    (vs : List (Nat × Nat × Bool)) : List Corruption × Option Corruption :=
  vs.foldl runMergeStep st

/-- Close the still-open record. -/
def finishMerge (st : List Corruption × Option Corruption) :
    List Corruption :=
  st.1 ++ st.2.toList

/-- The verdict triples produced by the sequential loop: offsets advance by
`min chunkSize remaining` and each verdict compares the two next chunks. -/
def seqVerdicts (chunkSize : Nat) (refRem corruptRem : List Nat)
    (offset : Nat) : List (Nat × Nat × Bool) :=
  if _hn : min chunkSize refRem.length = 0 then
    []
  else
    (offset, min chunkSize refRem.length,
      decide (refRem.take (min chunkSize refRem.length)
        ≠ corruptRem.take (min chunkSize refRem.length))) ::
      seqVerdicts chunkSize
        (refRem.drop (min chunkSize refRem.length))
        (corruptRem.drop (min chunkSize refRem.length))
        (offset + min chunkSize refRem.length)
termination_by refRem.length
decreasing_by simp only [List.length_drop]; omega

/-- A byte position `p` is covered by some record of the report. -/
def coversPos (report : List Corruption) (p : Nat) : Prop :=
  ∃ r ∈ report, r.offset ≤ p ∧ p < r.offset + r.length

/-- The chunk containing byte position `p` differs between the two blobs
(the chunk starts at the largest multiple of `chunkSize` not above `p` and
is truncated at the end of the reference blob). -/
def chunkDiffersAt (refBlob corruptBlob : List Nat) (chunkSize p : Nat) :
    Prop :=
  chunkSlice refBlob (chunkSize * (p / chunkSize))
      (min (chunkSize * (p / chunkSize) + chunkSize) refBlob.length)
    ≠ chunkSlice corruptBlob (chunkSize * (p / chunkSize))
      (min (chunkSize * (p / chunkSize) + chunkSize) refBlob.length)

/-- A report is strictly ordered with a gap between any two records. -/
def reportGapped (report : List Corruption) : Prop :=
  List.Pairwise (fun a b => a.offset + a.length < b.offset) report

/-- The collected mismatch vector of the mmap variants, in the order the
chunk offsets are generated, when no chunk comparison panics. -/
def parMismatches (refBlob corruptBlob : List Nat) (chunkSize : Nat) :
    List (Nat × Bool) :=
  (chunkOffsets refBlob.length chunkSize).map
    (fun o => (o,
      decide (chunkSlice refBlob o (min (o + chunkSize) refBlob.length)
        ≠ chunkSlice corruptBlob o (min (o + chunkSize) refBlob.length))))

/-- Conversion of a collected `(offset, is_corrupted)` pair into a verdict
triple carrying the chunk length. -/
def toTriple (fileLen chunkSize : Nat) (p : Nat × Bool) : Nat × Nat × Bool :=
  (p.1, min (p.1 + chunkSize) fileLen - p.1, p.2)

/-- The canonical verdict-triple stream of the mmap variants. -/
def parTriples (refBlob corruptBlob : List Nat) (chunkSize : Nat) :
    List (Nat × Nat × Bool) :=
  (parMismatches refBlob corruptBlob chunkSize).map
    (toTriple refBlob.length chunkSize)

/-- The reversed sequential accumulator viewed as a merge-loop state: the
head of the accumulator is the still-open record. -/
def accToSt (acc : List Corruption) : List Corruption × Option Corruption :=
  match acc with
  | [] => ([], none)
  | cur :: rest => (rest.reverse, some cur)

/-- Well-formedness of a verdict-triple stream: the verdicts describe the
consecutive chunks starting at position `pos` of a blob of length
`fileLen`, chunk starts advancing by `chunkSize`. -/
def streamWF (chunkSize fileLen : Nat) : Nat → List (Nat × Nat × Bool) → Prop
  | _, [] => True
  | pos, v :: vs =>
    v.1 = pos ∧ v.2.1 = min (pos + chunkSize) fileLen - pos ∧ pos < fileLen ∧
      streamWF chunkSize fileLen (pos + chunkSize) vs

/-- Structural facts about one record of a report: positive length,
chunk-aligned offset, contained in the file, and an end that is either
chunk-aligned or truncated at end of file. -/
def recAligned (chunkSize fileLen : Nat) (r : Corruption) : Prop :=
  0 < r.length ∧ chunkSize ∣ r.offset ∧ r.offset + r.length ≤ fileLen ∧
    (chunkSize ∣ (r.offset + r.length) ∨ r.offset + r.length = fileLen)

/-- Invariant of the merge-loop state after consuming the verdicts of all
chunks before position `pos`. -/
def stInv (chunkSize fileLen pos : Nat)
    (st : List Corruption × Option Corruption) : Prop :=
  (st.2 = none → st.1 = []) ∧
  List.Pairwise (fun a b => a.offset + a.length < b.offset) st.1 ∧
  (∀ r ∈ finishMerge st, recAligned chunkSize fileLen r) ∧
  (∀ cur, st.2 = some cur →
    (∀ r ∈ st.1, r.offset + r.length < cur.offset) ∧
      cur.offset + cur.length ≤ pos)

/-! Correctness of the SIMD comparison. -/

theorem simdLoop_eq (lanes : Nat) (a b : List Nat) (simdLen offset : Nat) :
    simdLoop lanes a b simdLen offset = decide (a.drop offset = b.drop offset) := by
  by_cases h2 : offset < simdLen ∧ 0 < lanes
  · rw [simdLoop, dif_pos h2]
    by_cases hblock : (a.drop offset).take lanes ≠ (b.drop offset).take lanes
    · rw [if_pos hblock]
      have hne : a.drop offset ≠ b.drop offset := fun hcon => hblock (by rw [hcon])
      simp [hne]
    · rw [if_neg hblock]
      push_neg at hblock
      rw [simdLoop_eq lanes a b simdLen (offset + lanes)]
      have ha : a.drop offset = (a.drop offset).take lanes ++ a.drop (offset + lanes) := by
        conv_lhs => rw [← List.take_append_drop lanes (a.drop offset)]
        rw [List.drop_drop]
      have hb : b.drop offset = (b.drop offset).take lanes ++ b.drop (offset + lanes) := by
        conv_lhs => rw [← List.take_append_drop lanes (b.drop offset)]
        rw [List.drop_drop]
      rw [decide_eq_decide]
      constructor
      · intro h
        rw [ha, hb, hblock, h]
      · intro h
        have := congrArg (List.drop lanes) h
        rwa [List.drop_drop, List.drop_drop] at this
  · rw [simdLoop, dif_neg h2]
termination_by simdLen - offset
decreasing_by omega

/-- Helper: `chunks_equal_simd` computes scalar slice equality. -/
theorem chunksEqualSimd_eq_scalar (lanes : Nat) (a b : List Nat) :
    chunksEqualSimd lanes a b = decide (a = b) := by
  rw [chunksEqualSimd]
  by_cases h : a.length ≠ b.length
  · rw [if_pos h]
    have hne : a ≠ b := fun hcon => h (by rw [hcon])
    simp [hne]
  · rw [if_neg h, simdLoop_eq]
    simp

/-- Claim C10: on slices of unequal length `chunks_equal_simd` returns
`false` (rather than panicking or erroring). -/
theorem chunksEqualSimd_ne_length (lanes : Nat) (a b : List Nat)
    (h : a.length ≠ b.length) : chunksEqualSimd lanes a b = false := by
  rw [chunksEqualSimd, if_pos h]

/-- Witness for C10 at a concrete input. -/
theorem chunksEqualSimd_ne_length_witness :
    chunksEqualSimd 4 [1, 2] [1, 2, 3] = false :=
  chunksEqualSimd_ne_length 4 [1, 2] [1, 2, 3] (by decide)

/-! The two SIMD variants coincide with the parallel variant. -/

theorem chunkMismatchSimd_eq (refBlob corruptBlob : List Nat)
    (chunkSize offset : Nat) :
    chunkMismatchSimd refBlob corruptBlob chunkSize offset
      = chunkMismatch refBlob corruptBlob chunkSize offset := by
  rw [chunkMismatchSimd, chunkMismatch]
  by_cases h : min (offset + chunkSize) refBlob.length ≤ corruptBlob.length
  · rw [if_pos h, if_pos h, chunksEqualSimd_eq_scalar]
    simp
  · rw [if_neg h, if_neg h]

theorem findCorruptionsSimd_eq_parallel (refBlob corruptBlob : List Nat)
    (chunkSize : Nat) :
    findCorruptionsSimd refBlob corruptBlob chunkSize
      = findCorruptionsParallel refBlob corruptBlob chunkSize := by
  rw [findCorruptionsSimd, findCorruptionsParallel]
  have hf : chunkMismatchSimd refBlob corruptBlob chunkSize
      = chunkMismatch refBlob corruptBlob chunkSize :=
    funext (chunkMismatchSimd_eq refBlob corruptBlob chunkSize)
  rw [hf]

theorem findCorruptionsSimdParallel_eq_simd (refBlob corruptBlob : List Nat)
    (chunkSize : Nat) :
    findCorruptionsSimdParallel refBlob corruptBlob chunkSize
      = findCorruptionsSimd refBlob corruptBlob chunkSize := rfl

/-! The mmap pipeline: collection, sorting, and the bridge from the merge
loop over `(offset, is_corrupted)` pairs to the verdict-triple fold. -/

theorem collectChunks_eq_map (f : Nat → Option (Nat × Bool))
    (g : Nat → Nat × Bool) (os : List Nat) (h : ∀ o ∈ os, f o = some (g o)) :
    collectChunks f os = some (os.map g) := by
  induction os with
  | nil => rfl
  | cons o os ih =>
    rw [collectChunks, h o (by simp), ih (fun a ha => h a (by simp [ha]))]
    rfl

theorem collectChunks_none (f : Nat → Option (Nat × Bool)) (os : List Nat)
    (o : Nat) (ho : o ∈ os) (hf : f o = none) : collectChunks f os = none := by
  induction os with
  | nil => cases ho
  | cons a os ih =>
    rcases List.mem_cons.mp ho with h | h
    · subst h
      rw [collectChunks, hf]
    · rw [collectChunks, ih h]
      cases f a <;> rfl

theorem collect_parMismatches (refBlob corruptBlob : List Nat)
    (chunkSize : Nat) (h : refBlob.length ≤ corruptBlob.length) :
    collectChunks (chunkMismatch refBlob corruptBlob chunkSize)
        (chunkOffsets refBlob.length chunkSize)
      = some (parMismatches refBlob corruptBlob chunkSize) := by
  rw [parMismatches]
  apply collectChunks_eq_map
  intro o ho
  rw [chunkMismatch, if_pos (le_trans (Nat.min_le_right _ _) h)]

theorem chunkOffsets_pairwise (fileLen chunkSize : Nat) (hc : 0 < chunkSize) :
    List.Pairwise (· < ·) (chunkOffsets fileLen chunkSize) :=
  List.pairwise_lt_range' _ _ chunkSize hc

theorem parMismatches_sorted (refBlob corruptBlob : List Nat)
    (chunkSize : Nat) (hc : 0 < chunkSize) :
    List.Pairwise (fun a b => (a : Nat × Bool).1 < b.1)
      (parMismatches refBlob corruptBlob chunkSize) := by
  rw [parMismatches, List.pairwise_map]
  exact (chunkOffsets_pairwise refBlob.length chunkSize hc).imp (fun h => h)

theorem sortMismatches_eq_self (ms : List (Nat × Bool))
    (h : List.Pairwise (fun a b => (a : Nat × Bool).1 < b.1) ms) :
    sortMismatches ms = ms := by
  rw [sortMismatches]
  exact List.Sorted.insertionSort_eq (h.imp (fun hab => Nat.le_of_lt hab))

theorem mergeStep_eq_runMergeStep (fileLen chunkSize : Nat)
    (st : List Corruption × Option Corruption) (p : Nat × Bool) :
    mergeStep fileLen chunkSize st p
      = runMergeStep st (toTriple fileLen chunkSize p) := by
  rcases st with ⟨fin, cur⟩
  rcases p with ⟨o, b⟩
  cases b <;> cases cur <;> simp [mergeStep, runMergeStep, toTriple]

theorem mergeMismatches_eq_runMerge (fileLen chunkSize : Nat)
    (ms : List (Nat × Bool)) :
    mergeMismatches fileLen chunkSize ms
      = finishMerge (runMerge ([], none) (ms.map (toTriple fileLen chunkSize))) := by
  have hstep : mergeStep fileLen chunkSize
      = fun st p => runMergeStep st (toTriple fileLen chunkSize p) :=
    funext fun st => funext fun p => mergeStep_eq_runMergeStep fileLen chunkSize st p
  rw [mergeMismatches, runMerge, List.foldl_map, finishMerge, hstep]

theorem findCorruptionsParallel_eq_runMerge (refBlob corruptBlob : List Nat)
    (chunkSize : Nat) (hc : 0 < chunkSize)
    (hlen : refBlob.length ≤ corruptBlob.length) :
    findCorruptionsParallel refBlob corruptBlob chunkSize
      = some (finishMerge (runMerge ([], none)
          (parTriples refBlob corruptBlob chunkSize))) := by
  rw [findCorruptionsParallel, if_neg (Nat.pos_iff_ne_zero.mp hc),
    collect_parMismatches refBlob corruptBlob chunkSize hlen]
  rw [Option.map_some', mergeCollected,
    sortMismatches_eq_self _ (parMismatches_sorted _ _ _ hc),
    mergeMismatches_eq_runMerge, parTriples]

/-! The sequential loop as a verdict-triple fold. -/

theorem accToSt_push (acc : List Corruption) (offset n : Nat) :
    accToSt (pushCorruption acc offset n)
      = runMergeStep (accToSt acc) (offset, n, true) := by
  cases acc with
  | nil => rfl
  | cons cur rest =>
    rw [pushCorruption]
    by_cases h : cur.offset + cur.length = offset
    · rw [if_pos h]
      simp [accToSt, runMergeStep, h]
    · rw [if_neg h]
      simp [accToSt, runMergeStep, h, List.reverse_cons]

theorem seqVerdicts_nil (chunkSize : Nat) (cs : List Nat) (off : Nat) :
    seqVerdicts chunkSize [] cs off = [] := by
  rw [seqVerdicts]
  simp

theorem seqGo_eq_runMerge (chunkSize : Nat) (refRem corruptRem : List Nat)
    (offset : Nat) (acc : List Corruption)
    (hlen : refRem.length ≤ corruptRem.length) :
    seqGo chunkSize refRem corruptRem offset acc
      = some (finishMerge (runMerge (accToSt acc)
          (seqVerdicts chunkSize refRem corruptRem offset))) := by
  by_cases hn : min chunkSize refRem.length = 0
  · rw [seqGo, dif_pos hn, seqVerdicts, dif_pos hn]
    cases acc with
    | nil => rfl
    | cons cur rest => simp [accToSt, runMerge, finishMerge, List.reverse_cons]
  · have hno : ¬ corruptRem.length < min chunkSize refRem.length := by
      have := Nat.min_le_right chunkSize refRem.length
      omega
    rw [seqGo, dif_neg hn, if_neg hno, seqVerdicts, dif_neg hn]
    rw [runMerge, List.foldl_cons, ← runMerge]
    have hlen2 : (refRem.drop (min chunkSize refRem.length)).length
        ≤ (corruptRem.drop (min chunkSize refRem.length)).length := by
      simp only [List.length_drop]
      omega
    rw [seqGo_eq_runMerge chunkSize _ _ _ _ hlen2]
    by_cases hd : refRem.take (min chunkSize refRem.length)
        ≠ corruptRem.take (min chunkSize refRem.length)
    · rw [if_pos hd, accToSt_push, decide_eq_true hd]
    · rw [if_neg hd]
      have hdf : decide (refRem.take (min chunkSize refRem.length)
          ≠ corruptRem.take (min chunkSize refRem.length)) = false := by
        simpa using hd
      rw [hdf]
      rfl
termination_by refRem.length
decreasing_by simp only [List.length_drop]; omega

theorem findCorruptionsSequential_eq_runMerge (refBlob corruptBlob : List Nat)
    (chunkSize : Nat) (hlen : refBlob.length ≤ corruptBlob.length) :
    findCorruptionsSequential refBlob corruptBlob chunkSize
      = some (finishMerge (runMerge ([], none)
          (seqVerdicts chunkSize refBlob corruptBlob 0))) := by
  rw [findCorruptionsSequential, seqGo_eq_runMerge chunkSize _ _ _ _ hlen]
  rfl

theorem seqVerdicts_eq (chunkSize : Nat) (rs cs : List Nat) (off : Nat)
    (hc : 0 < chunkSize) :
    seqVerdicts chunkSize rs cs off
      = (chunkOffsets rs.length chunkSize).map
          (fun o => (off + o, min (o + chunkSize) rs.length - o,
            decide (chunkSlice rs o (min (o + chunkSize) rs.length)
              ≠ chunkSlice cs o (min (o + chunkSize) rs.length)))) := by
  by_cases h0 : rs.length = 0
  · have hmin : min chunkSize rs.length = 0 := by omega
    rw [seqVerdicts, dif_pos hmin, chunkOffsets]
    have hk : (rs.length + chunkSize - 1) / chunkSize = 0 :=
      Nat.div_eq_of_lt (by omega)
    rw [hk]
    rfl
  · have hL : 0 < rs.length := Nat.pos_of_ne_zero h0
    have hmin : ¬ min chunkSize rs.length = 0 := by omega
    rw [seqVerdicts, dif_neg hmin]
    have hk : (rs.length + chunkSize - 1) / chunkSize
        = (rs.length - 1) / chunkSize + 1 := by
      have h1 : rs.length + chunkSize - 1 = (rs.length - 1) + chunkSize := by
        omega
      rw [h1, Nat.add_div_right _ hc]
    by_cases hcl : rs.length ≤ chunkSize
    · have hn : min chunkSize rs.length = rs.length := by omega
      have hk1 : (rs.length - 1) / chunkSize = 0 :=
        Nat.div_eq_of_lt (by omega)
      rw [chunkOffsets, hk, hk1, List.range'_succ, hn]
      have hdrop : rs.drop rs.length = [] := by
        simp
      rw [hdrop, seqVerdicts_nil]
      simp only [List.range'_zero, List.map_cons, List.map_nil]
      congr 1
      simp only [Prod.mk.injEq]
      refine ⟨by omega, by omega, ?_⟩
      have e1 : chunkSlice rs 0 (min (0 + chunkSize) rs.length) = rs.take rs.length := by
        rw [chunkSlice]
        have hm : min (0 + chunkSize) rs.length = rs.length := by omega
        rw [hm]
        simp
      have e2 : chunkSlice cs 0 (min (0 + chunkSize) rs.length)
          = cs.take rs.length := by
        rw [chunkSlice]
        have : min (0 + chunkSize) rs.length = rs.length := by omega
        rw [this]
        simp
      rw [e1, e2]
    · have hn : min chunkSize rs.length = chunkSize := by omega
      have hcl2 : chunkSize < rs.length := by omega
      have hk2 : ((rs.drop chunkSize).length + chunkSize - 1) / chunkSize
          = (rs.length - 1) / chunkSize := by
        rw [List.length_drop]
        have h1 : rs.length - chunkSize + chunkSize - 1
            = (rs.length - 1 - chunkSize) + chunkSize := by omega
        rw [h1, Nat.add_div_right _ hc]
        have h2 : rs.length - 1 = (rs.length - 1 - chunkSize) + chunkSize := by
          omega
        conv_rhs => rw [h2, Nat.add_div_right _ hc]
      rw [chunkOffsets, hk, List.range'_succ, List.map_cons, hn]
      congr 1
      · simp only [Prod.mk.injEq]
        refine ⟨by omega, by omega, ?_⟩
        have e1 : ∀ (x : List Nat), chunkSlice x 0 (min (0 + chunkSize) rs.length)
            = x.take chunkSize := by
          intro x
          rw [chunkSlice]
          have : min (0 + chunkSize) rs.length = chunkSize := by omega
          rw [this]
          simp
        rw [e1, e1]
      · rw [seqVerdicts_eq chunkSize (rs.drop chunkSize) (cs.drop chunkSize)
          (off + chunkSize) hc]
        rw [chunkOffsets, hk2]
        have hr : List.range' (0 + chunkSize) ((rs.length - 1) / chunkSize) chunkSize
            = List.map (chunkSize + ·) (List.range' 0 ((rs.length - 1) / chunkSize)
                chunkSize) := by
          rw [List.map_add_range']
          norm_num
        rw [hr, List.map_map]
        apply List.map_congr_left
        intro o ho
        simp only [Function.comp_apply, Prod.mk.injEq, List.length_drop]
        refine ⟨by omega, by omega, ?_⟩
        have edrop : ∀ (x : List Nat),
            chunkSlice (x.drop chunkSize) o (min (o + chunkSize) (rs.length - chunkSize))
              = chunkSlice x (chunkSize + o)
                (min (chunkSize + o + chunkSize) rs.length) := by
          intro x
          rw [chunkSlice, chunkSlice, List.drop_drop]
          have h3 : o + chunkSize = chunkSize + o := by omega
          rw [h3]
          congr 1
          omega
        rw [edrop, edrop]
termination_by rs.length
decreasing_by simp only [List.length_drop]; omega

theorem seqVerdicts_eq_parTriples (refBlob corruptBlob : List Nat)
    (chunkSize : Nat) (hc : 0 < chunkSize) :
    seqVerdicts chunkSize refBlob corruptBlob 0
      = parTriples refBlob corruptBlob chunkSize := by
  rw [seqVerdicts_eq chunkSize refBlob corruptBlob 0 hc, parTriples,
    parMismatches, List.map_map]
  apply List.map_congr_left
  intro o ho
  simp [toTriple]

theorem seq_eq_parallel (refBlob corruptBlob : List Nat) (chunkSize : Nat)
    (hc : 0 < chunkSize) (hlen : refBlob.length ≤ corruptBlob.length) :
    findCorruptionsSequential refBlob corruptBlob chunkSize
      = findCorruptionsParallel refBlob corruptBlob chunkSize := by
  rw [findCorruptionsSequential_eq_runMerge _ _ _ hlen,
    findCorruptionsParallel_eq_runMerge _ _ _ hc hlen,
    seqVerdicts_eq_parTriples _ _ _ hc]

/-! Coverage: a byte position is inside the final report exactly when a
corrupted verdict range contains it. -/

theorem coversPos_append (r1 r2 : List Corruption) (p : Nat) :
    coversPos (r1 ++ r2) p ↔ coversPos r1 p ∨ coversPos r2 p := by
  simp [coversPos, List.mem_append, or_and_right, exists_or]

theorem coversPos_singleton (r : Corruption) (p : Nat) :
    coversPos [r] p ↔ r.offset ≤ p ∧ p < r.offset + r.length := by
  simp [coversPos]

theorem runMergeStep_covers (st : List Corruption × Option Corruption)
    (v : Nat × Nat × Bool) (p : Nat) :
    coversPos (finishMerge (runMergeStep st v)) p ↔
      (coversPos (finishMerge st) p
        ∨ (v.2.2 = true ∧ v.1 ≤ p ∧ p < v.1 + v.2.1)) := by
  rcases st with ⟨fin, cur⟩
  rcases v with ⟨o, len, b⟩
  cases b
  · simp [runMergeStep]
  · cases cur with
    | none =>
      have hstep : runMergeStep (fin, none) (o, len, true)
          = (fin, some ⟨o, len⟩) := by
        simp [runMergeStep]
      rw [hstep]
      simp only [finishMerge, Option.toList_some, Option.toList_none,
        List.append_nil]
      rw [coversPos_append, coversPos_singleton]
      by_cases hf : coversPos fin p
      · simp [hf]
      · simp only [hf, false_or]
        simp
    | some c0 =>
      by_cases hadj : c0.offset + c0.length = o
      · have hstep : runMergeStep (fin, some c0) (o, len, true)
            = (fin, some ⟨c0.offset, c0.length + len⟩) := by
          simp [runMergeStep, hadj]
        rw [hstep]
        simp only [finishMerge, Option.toList_some]
        rw [coversPos_append, coversPos_append, coversPos_singleton,
          coversPos_singleton]
        by_cases hf : coversPos fin p
        · simp [hf]
        · simp only [hf, false_or]
          simp
          omega
      · have hstep : runMergeStep (fin, some c0) (o, len, true)
            = (fin ++ [c0], some ⟨o, len⟩) := by
          simp [runMergeStep, hadj]
        rw [hstep]
        simp only [finishMerge, Option.toList_some]
        rw [coversPos_append, coversPos_append, coversPos_singleton,
          coversPos_singleton]
        simp

theorem runMerge_covers (vs : List (Nat × Nat × Bool)) :
    ∀ (st : List Corruption × Option Corruption) (p : Nat),
      coversPos (finishMerge (runMerge st vs)) p ↔
        (coversPos (finishMerge st) p
          ∨ ∃ v ∈ vs, v.2.2 = true ∧ v.1 ≤ p ∧ p < v.1 + v.2.1) := by
  induction vs with
  | nil =>
    intro st p
    simp [runMerge]
  | cons v vs ih =>
    intro st p
    rw [runMerge, List.foldl_cons, ← runMerge, ih, runMergeStep_covers]
    simp only [List.mem_cons]
    constructor
    · intro h
      rcases h with (h | h) | ⟨w, hw, hp⟩
      · exact Or.inl h
      · exact Or.inr ⟨v, Or.inl rfl, h⟩
      · exact Or.inr ⟨w, Or.inr hw, hp⟩
    · intro h
      rcases h with h | ⟨w, hw | hw, hp⟩
      · exact Or.inl (Or.inl h)
      · subst hw
        exact Or.inl (Or.inr hp)
      · exact Or.inr ⟨w, hw, hp⟩

/-! Structural invariants of the merge loop. -/

theorem runMergeStep_inv (chunkSize fileLen pos : Nat) (hc : 0 < chunkSize)
    (hpos : chunkSize ∣ pos) (hposlt : pos < fileLen)
    (st : List Corruption × Option Corruption) (v : Nat × Nat × Bool)
    (hv1 : v.1 = pos) (hv2 : v.2.1 = min (pos + chunkSize) fileLen - pos)
    (hinv : stInv chunkSize fileLen pos st) :
    stInv chunkSize fileLen (pos + chunkSize) (runMergeStep st v) := by
  obtain ⟨h1, h2, h3, h4⟩ := hinv
  rcases st with ⟨fin, cur⟩
  rcases v with ⟨o, len, b⟩
  simp only at hv1 hv2
  have hv1s : pos = o := hv1.symm
  subst hv1s
  have hlen0 : 0 < len := by omega
  have hendle : pos + len ≤ fileLen := by omega
  have hendal : chunkSize ∣ (pos + len) ∨ pos + len = fileLen := by
    by_cases hle : pos + chunkSize ≤ fileLen
    · left
      have hlc : len = chunkSize := by omega
      rw [hlc]
      exact Nat.dvd_add hpos dvd_rfl
    · right
      omega
  cases b
  · have hstep : runMergeStep (fin, cur) (pos, len, false) = (fin, cur) := by
      simp [runMergeStep]
    rw [hstep]
    refine ⟨h1, h2, h3, ?_⟩
    intro c0 hcur
    obtain ⟨ha, hb⟩ := h4 c0 hcur
    exact ⟨ha, by omega⟩
  · cases cur with
    | none =>
      have hfin : fin = [] := h1 rfl
      subst hfin
      have hstep : runMergeStep (([] : List Corruption),
            (none : Option Corruption)) (pos, len, true)
          = ([], some ⟨pos, len⟩) := by
        simp [runMergeStep]
      rw [hstep]
      refine ⟨fun h => rfl, List.Pairwise.nil, ?_, ?_⟩
      · intro r hr
        simp only [finishMerge, Option.toList_some, List.nil_append,
          List.mem_singleton] at hr
        subst hr
        exact ⟨hlen0, hpos, hendle, hendal⟩
      · intro c0 hc0
        simp only [Option.some.injEq] at hc0
        subst hc0
        exact ⟨fun r hr => absurd hr (List.not_mem_nil r), by simp; omega⟩
    | some c0 =>
      have hc0mem : c0 ∈ finishMerge (fin, some c0) := by
        simp [finishMerge]
      obtain ⟨hc0len, hc0off, hc0le, hc0al⟩ := h3 c0 hc0mem
      obtain ⟨hgap, hcend⟩ := h4 c0 rfl
      by_cases hadj : c0.offset + c0.length = pos
      · have hstep : runMergeStep (fin, some c0) (pos, len, true)
            = (fin, some ⟨c0.offset, c0.length + len⟩) := by
          simp [runMergeStep, hadj]
        rw [hstep]
        refine ⟨(fun h => by cases h), h2, ?_, ?_⟩
        · intro r hr
          simp only [finishMerge, Option.toList_some] at hr
          rcases List.mem_append.mp hr with hr | hr
          · exact h3 r (by simp [finishMerge, hr])
          · simp only [List.mem_singleton] at hr
            subst hr
            refine ⟨by simp; omega, by simpa using hc0off, by simp; omega, ?_⟩
            have he : c0.offset + (c0.length + len) = pos + len := by omega
            simp only [he]
            exact hendal
        · intro c1 hc1
          simp only [Option.some.injEq] at hc1
          subst hc1
          constructor
          · intro r hr
            simpa using hgap r hr
          · simp
            omega
      · have hstep : runMergeStep (fin, some c0) (pos, len, true)
            = (fin ++ [c0], some ⟨pos, len⟩) := by
          simp [runMergeStep, hadj]
        rw [hstep]
        have hc0end : c0.offset + c0.length < pos := by omega
        refine ⟨(fun h => by cases h), ?_, ?_, ?_⟩
        · apply List.pairwise_append.mpr
          refine ⟨h2, by simp, ?_⟩
          intro a ha b hb
          simp only [List.mem_singleton] at hb
          rw [hb]
          exact hgap a ha
        · intro r hr
          simp only [finishMerge, Option.toList_some] at hr
          rcases List.mem_append.mp hr with hr | hr
          · rcases List.mem_append.mp hr with hr | hr
            · exact h3 r (by simp [finishMerge, hr])
            · simp only [List.mem_singleton] at hr
              subst hr
              exact ⟨hc0len, hc0off, hc0le, hc0al⟩
          · simp only [List.mem_singleton] at hr
            subst hr
            exact ⟨hlen0, hpos, hendle, hendal⟩
        · intro c1 hc1
          simp only [Option.some.injEq] at hc1
          subst hc1
          constructor
          · intro r hr
            rcases List.mem_append.mp hr with hr | hr
            · have := hgap r hr
              simp
              omega
            · simp only [List.mem_singleton] at hr
              subst hr
              simp
              omega
          · simp
            omega

theorem runMerge_inv (chunkSize fileLen : Nat) (hc : 0 < chunkSize) :
    ∀ (vs : List (Nat × Nat × Bool)) (pos : Nat)
      (st : List Corruption × Option Corruption),
      chunkSize ∣ pos → streamWF chunkSize fileLen pos vs →
      stInv chunkSize fileLen pos st →
      ∃ pos2, stInv chunkSize fileLen pos2 (runMerge st vs) := by
  intro vs
  induction vs with
  | nil =>
    intro pos st hpos hwf hinv
    exact ⟨pos, hinv⟩
  | cons v vs ih =>
    intro pos st hpos hwf hinv
    obtain ⟨hv1, hv2, hposlt, hrest⟩ := hwf
    rw [runMerge, List.foldl_cons, ← runMerge]
    exact ih (pos + chunkSize) _ (Nat.dvd_add hpos dvd_rfl) hrest
      (runMergeStep_inv chunkSize fileLen pos hc hpos hposlt st v hv1 hv2 hinv)

theorem stInv_init (chunkSize fileLen : Nat) :
    stInv chunkSize fileLen 0 ([], none) := by
  refine ⟨fun _ => rfl, List.Pairwise.nil, ?_, ?_⟩
  · intro r hr
    simp [finishMerge] at hr
  · intro c0 hc0
    cases hc0

theorem streamWF_seqVerdicts (chunkSize : Nat) (rs cs : List Nat)
    (off : Nat) :
    streamWF chunkSize (off + rs.length) off
      (seqVerdicts chunkSize rs cs off) := by
  by_cases hn : min chunkSize rs.length = 0
  · rw [seqVerdicts, dif_pos hn]
    exact trivial
  · rw [seqVerdicts, dif_neg hn]
    refine ⟨rfl, ?_, by omega, ?_⟩
    · show min chunkSize rs.length = min (off + chunkSize) (off + rs.length) - off
      omega
    by_cases hcl : rs.length ≤ chunkSize
    · have hdrop : rs.drop (min chunkSize rs.length) = [] := by
        have hm : min chunkSize rs.length = rs.length := by omega
        rw [hm]
        simp
      rw [hdrop, seqVerdicts_nil]
      exact trivial
    · have hmin : min chunkSize rs.length = chunkSize := by omega
      have ih := streamWF_seqVerdicts chunkSize (rs.drop chunkSize)
        (cs.drop chunkSize) (off + chunkSize)
      rw [List.length_drop] at ih
      have heq : off + chunkSize + (rs.length - chunkSize)
          = off + rs.length := by omega
      rw [heq] at ih
      rw [hmin]
      exact ih
termination_by rs.length
decreasing_by simp only [List.length_drop]; omega

theorem stInv_finish_gapped (chunkSize fileLen pos : Nat)
    (st : List Corruption × Option Corruption)
    (h : stInv chunkSize fileLen pos st) :
    reportGapped (finishMerge st) := by
  rcases st with ⟨fin, cur⟩
  cases cur with
  | none =>
    simpa [finishMerge, reportGapped] using h.2.1
  | some c0 =>
    rw [finishMerge]
    simp only [Option.toList_some]
    rw [reportGapped]
    apply List.pairwise_append.mpr
    refine ⟨h.2.1, by simp, ?_⟩
    intro a ha b hb
    simp only [List.mem_singleton] at hb
    rw [hb]
    exact (h.2.2.2 c0 rfl).1 a ha

/-! Degenerate cases: zero chunk size and a reference longer than the
candidate. -/

theorem seqGo_none (chunkSize : Nat) (refRem corruptRem : List Nat)
    (offset : Nat) (acc : List Corruption) (hc : 0 < chunkSize)
    (hlen : corruptRem.length < refRem.length) :
    seqGo chunkSize refRem corruptRem offset acc = none := by
  have hn : ¬ min chunkSize refRem.length = 0 := by omega
  rw [seqGo, dif_neg hn]
  by_cases hlt : corruptRem.length < min chunkSize refRem.length
  · rw [if_pos hlt]
  · rw [if_neg hlt]
    apply seqGo_none
    · exact hc
    · simp only [List.length_drop]
      omega
termination_by refRem.length
decreasing_by simp only [List.length_drop]; omega

theorem findCorruptionsParallel_none (refBlob corruptBlob : List Nat)
    (chunkSize : Nat) (hc : 0 < chunkSize)
    (hlen : corruptBlob.length < refBlob.length) :
    findCorruptionsParallel refBlob corruptBlob chunkSize = none := by
  rw [findCorruptionsParallel, if_neg (Nat.pos_iff_ne_zero.mp hc)]
  have hN : 0 < refBlob.length := by omega
  have hdm := Nat.div_add_mod (refBlob.length - 1) chunkSize
  have hml := Nat.mod_lt (refBlob.length - 1) hc
  set q := (refBlob.length - 1) / chunkSize with hq
  set r := (refBlob.length - 1) % chunkSize with hr
  set m := chunkSize * q with hm
  have hmem : m ∈ chunkOffsets refBlob.length chunkSize := by
    rw [chunkOffsets, List.mem_range']
    refine ⟨q, ?_, by omega⟩
    have hk : (refBlob.length + chunkSize - 1) / chunkSize
        = (refBlob.length - 1) / chunkSize + 1 := by
      have h1 : refBlob.length + chunkSize - 1
          = (refBlob.length - 1) + chunkSize := by omega
      rw [h1, Nat.add_div_right _ hc]
    omega
  have hnone : chunkMismatch refBlob corruptBlob chunkSize m = none := by
    rw [chunkMismatch, if_neg]
    omega
  rw [collectChunks_none _ _ m hmem hnone]
  rfl

theorem findCorruptionsSequential_chunk0 (refBlob corruptBlob : List Nat) :
    findCorruptionsSequential refBlob corruptBlob 0 = some [] := by
  rw [findCorruptionsSequential, seqGo, dif_pos (by simp)]
  rfl

theorem findCorruptionsParallel_chunk0 (refBlob corruptBlob : List Nat) :
    findCorruptionsParallel refBlob corruptBlob 0 = none := by
  rw [findCorruptionsParallel, if_pos rfl]

theorem variant_some_cases (refBlob corruptBlob : List Nat)
    (chunkSize : Nat) (report : List Corruption)
    (h : findCorruptionsSequential refBlob corruptBlob chunkSize = some report
       ∨ findCorruptionsParallel refBlob corruptBlob chunkSize = some report
       ∨ findCorruptionsSimd refBlob corruptBlob chunkSize = some report
       ∨ findCorruptionsSimdParallel refBlob corruptBlob chunkSize
           = some report) :
    report = [] ∨ (0 < chunkSize ∧ refBlob.length ≤ corruptBlob.length ∧
      report = finishMerge (runMerge ([], none)
        (seqVerdicts chunkSize refBlob corruptBlob 0))) := by
  rw [findCorruptionsSimdParallel_eq_simd, findCorruptionsSimd_eq_parallel] at h
  have h2 : findCorruptionsSequential refBlob corruptBlob chunkSize = some report
      ∨ findCorruptionsParallel refBlob corruptBlob chunkSize = some report := by
    tauto
  by_cases hc : chunkSize = 0
  · subst hc
    rcases h2 with h2 | h2
    · rw [findCorruptionsSequential_chunk0] at h2
      exact Or.inl (Option.some_inj.mp h2).symm
    · rw [findCorruptionsParallel_chunk0] at h2
      cases h2
  · have hc2 : 0 < chunkSize := Nat.pos_of_ne_zero hc
    by_cases hlen : refBlob.length ≤ corruptBlob.length
    · right
      refine ⟨hc2, hlen, ?_⟩
      rcases h2 with h2 | h2
      · rw [findCorruptionsSequential_eq_runMerge _ _ _ hlen] at h2
        exact (Option.some_inj.mp h2).symm
      · rw [findCorruptionsParallel_eq_runMerge _ _ _ hc2 hlen,
          ← seqVerdicts_eq_parTriples _ _ _ hc2] at h2
        exact (Option.some_inj.mp h2).symm
    · have hlt : corruptBlob.length < refBlob.length := by omega
      rcases h2 with h2 | h2
      · rw [findCorruptionsSequential, seqGo_none _ _ _ _ _ hc2 hlt] at h2
        cases h2
      · rw [findCorruptionsParallel_none _ _ _ hc2 hlt] at h2
        cases h2

theorem report_gapped_aligned (refBlob corruptBlob : List Nat)
    (chunkSize : Nat) (report : List Corruption)
    (h : findCorruptionsSequential refBlob corruptBlob chunkSize = some report
       ∨ findCorruptionsParallel refBlob corruptBlob chunkSize = some report
       ∨ findCorruptionsSimd refBlob corruptBlob chunkSize = some report
       ∨ findCorruptionsSimdParallel refBlob corruptBlob chunkSize
           = some report) :
    reportGapped report
      ∧ ∀ r ∈ report, recAligned chunkSize refBlob.length r := by
  rcases variant_some_cases refBlob corruptBlob chunkSize report h with
    hrep | ⟨hc, hlen, hrep⟩
  · subst hrep
    exact ⟨List.Pairwise.nil, by simp⟩
  · subst hrep
    have hwf := streamWF_seqVerdicts chunkSize refBlob corruptBlob 0
    rw [Nat.zero_add] at hwf
    obtain ⟨pos2, hinv⟩ := runMerge_inv chunkSize refBlob.length hc
      (seqVerdicts chunkSize refBlob corruptBlob 0) 0 ([], none)
      (dvd_zero chunkSize) hwf (stInv_init chunkSize refBlob.length)
    exact ⟨stInv_finish_gapped _ _ _ _ hinv, hinv.2.2.1⟩

/-! Chunk index arithmetic and the coverage characterization. -/

theorem lt_ceil_iff (c N i : Nat) (hc : 0 < c) :
    i < (N + c - 1) / c ↔ c * i < N := by
  rw [Nat.lt_iff_add_one_le, Nat.le_div_iff_mul_le hc, Nat.add_mul,
    Nat.one_mul, Nat.mul_comm i c]
  omega

theorem chunkStart_mem (N chunkSize p : Nat) (hc : 0 < chunkSize)
    (hp : p < N) :
    chunkSize * (p / chunkSize) ∈ chunkOffsets N chunkSize := by
  rw [chunkOffsets, List.mem_range']
  have h1 := Nat.mul_div_le p chunkSize
  refine ⟨p / chunkSize, ?_, by omega⟩
  rw [lt_ceil_iff _ _ _ hc]
  omega

theorem verdict_covers_iff (refBlob corruptBlob : List Nat)
    (chunkSize p : Nat) (hc : 0 < chunkSize) :
    (∃ v ∈ seqVerdicts chunkSize refBlob corruptBlob 0,
        v.2.2 = true ∧ v.1 ≤ p ∧ p < v.1 + v.2.1)
      ↔ (p < refBlob.length
          ∧ chunkDiffersAt refBlob corruptBlob chunkSize p) := by
  rw [seqVerdicts_eq _ _ _ _ hc]
  constructor
  · rintro ⟨v, hv, hcor, hle, hlt⟩
    rw [List.mem_map] at hv
    obtain ⟨o, ho, rfl⟩ := hv
    simp only [Nat.zero_add] at hcor hle hlt
    rw [chunkOffsets, List.mem_range'] at ho
    obtain ⟨i, hi, rfl⟩ := ho
    simp only [Nat.zero_add] at hcor hle hlt ⊢
    rw [lt_ceil_iff _ _ _ hc] at hi
    have hpN : p < refBlob.length := by omega
    have hpc : p < chunkSize * i + chunkSize := by omega
    have hdiv : p / chunkSize = i := by
      have h2 := Nat.div_add_mod p chunkSize
      have h3 := Nat.mod_lt p hc
      have h4 : chunkSize * (p / chunkSize) ≤ p := Nat.mul_div_le p chunkSize
      -- p is in [chunkSize * i, chunkSize * i + chunkSize)
      rcases Nat.lt_trichotomy (p / chunkSize) i with h5 | h5 | h5
      · exfalso
        have : chunkSize * (p / chunkSize) + chunkSize ≤ chunkSize * i := by
          have := Nat.mul_le_mul_left chunkSize (Nat.succ_le_of_lt h5)
          rw [Nat.mul_succ] at this
          omega
        omega
      · exact h5
      · exfalso
        have : chunkSize * i + chunkSize ≤ chunkSize * (p / chunkSize) := by
          have := Nat.mul_le_mul_left chunkSize (Nat.succ_le_of_lt h5)
          rw [Nat.mul_succ] at this
          omega
        omega
    refine ⟨hpN, ?_⟩
    rw [chunkDiffersAt, hdiv]
    simpa using hcor
  · rintro ⟨hpN, hdiff⟩
    refine ⟨(chunkSize * (p / chunkSize),
      min (chunkSize * (p / chunkSize) + chunkSize) refBlob.length
        - chunkSize * (p / chunkSize),
      decide (chunkSlice refBlob (chunkSize * (p / chunkSize))
          (min (chunkSize * (p / chunkSize) + chunkSize) refBlob.length)
        ≠ chunkSlice corruptBlob (chunkSize * (p / chunkSize))
          (min (chunkSize * (p / chunkSize) + chunkSize) refBlob.length))),
      ?_, ?_, ?_, ?_⟩
    · rw [List.mem_map]
      refine ⟨chunkSize * (p / chunkSize), chunkStart_mem _ _ _ hc hpN, ?_⟩
      simp
    · rw [chunkDiffersAt] at hdiff
      simpa using hdiff
    · simp only
      have h4 : chunkSize * (p / chunkSize) ≤ p := Nat.mul_div_le p chunkSize
      omega
    · simp only
      have h2 := Nat.div_add_mod p chunkSize
      have h3 := Nat.mod_lt p hc
      omega

theorem canonical_covers_iff (refBlob corruptBlob : List Nat)
    (chunkSize p : Nat) (hc : 0 < chunkSize) :
    coversPos (finishMerge (runMerge ([], none)
        (seqVerdicts chunkSize refBlob corruptBlob 0))) p
      ↔ (p < refBlob.length
          ∧ chunkDiffersAt refBlob corruptBlob chunkSize p) := by
  rw [runMerge_covers]
  have hnil : ¬ coversPos (finishMerge ([], none)) p := by
    simp [finishMerge, coversPos]
  rw [← verdict_covers_iff refBlob corruptBlob chunkSize p hc]
  tauto

theorem gapped_full_cover (report : List Corruption) (N : Nat) (hN : 0 < N)
    (hgap : reportGapped report) (hpos : ∀ r ∈ report, 0 < r.length)
    (hcov : ∀ p, coversPos report p ↔ p < N) :
    report = [⟨0, N⟩] := by
  cases report with
  | nil =>
    exfalso
    exact (by simp [coversPos] : ¬ coversPos [] 0) ((hcov 0).mpr hN)
  | cons r rest =>
    rw [reportGapped, List.pairwise_cons] at hgap
    obtain ⟨hgr, hgrest⟩ := hgap
    have hr0 : r.offset = 0 := by
      obtain ⟨rec, hrec, hrle, hrlt⟩ := (hcov 0).mpr hN
      rcases List.mem_cons.mp hrec with h | h
      · rw [h] at hrle
        omega
      · exfalso
        have := hgr rec h
        omega
    cases rest with
    | nil =>
      have h1 : N - 1 < r.offset + r.length := by
        obtain ⟨rec, hrec, hle, hlt⟩ := (hcov (N - 1)).mpr (by omega)
        rcases List.mem_cons.mp hrec with h | h
        · rw [h] at hlt
          omega
        · cases h
      have h2 : ¬ (r.offset ≤ N ∧ N < r.offset + r.length) := by
        intro hcon
        have := (hcov N).mp ⟨r, by simp, hcon⟩
        omega
      have hrl : r.length = N := by omega
      have hreq : r = (⟨0, N⟩ : Corruption) := by
        cases r
        simp only [Corruption.mk.injEq]
        exact ⟨hr0, hrl⟩
      rw [hreq]
    | cons r2 rest2 =>
      exfalso
      have hr2len : 0 < r2.length := hpos r2 (by simp)
      have hr2cov : r2.offset < N :=
        (hcov r2.offset).mp ⟨r2, by simp, by omega⟩
      have hadj : r.offset + r.length < r2.offset := hgr r2 (by simp)
      obtain ⟨rec, hrec, hle, hlt⟩ :=
        (hcov (r.offset + r.length)).mpr (by omega)
      rcases List.mem_cons.mp hrec with h | h
      · rw [h] at hlt
        omega
      · have := hgr rec h
        omega

/-! Completion-order invariance of the sort-then-merge stage. -/

theorem sortMismatches_perm_eq (ms0 ms : List (Nat × Bool))
    (hperm : ms.Perm ms0)
    (hsort : List.Pairwise (fun a b => (a : Nat × Bool).1 < b.1) ms0) :
    sortMismatches ms = ms0 := by
  have htot : IsTotal (Nat × Bool) (fun a b => a.1 ≤ b.1) :=
    ⟨fun a b => Nat.le_total a.1 b.1⟩
  have htrans : IsTrans (Nat × Bool) (fun a b => a.1 ≤ b.1) :=
    ⟨fun a b c hab hbc => Nat.le_trans hab hbc⟩
  have hanti : IsAntisymm (Nat × Bool) (fun a b => a.1 < b.1) :=
    ⟨fun a b hab hba => absurd (Nat.lt_trans hab hba) (Nat.lt_irrefl _)⟩
  have hperm2 : (sortMismatches ms).Perm ms0 :=
    (List.perm_insertionSort _ ms).trans hperm
  have hle : List.Pairwise (fun a b => (a : Nat × Bool).1 ≤ b.1)
      (sortMismatches ms) :=
    @List.sorted_insertionSort (Nat × Bool) (fun a b => a.1 ≤ b.1) _ htot
      htrans ms
  have hne0 : List.Pairwise (fun a b => (a : Nat × Bool).1 ≠ b.1) ms0 :=
    hsort.imp (fun h => Nat.ne_of_lt h)
  have hne : List.Pairwise (fun a b => (a : Nat × Bool).1 ≠ b.1)
      (sortMismatches ms) :=
    (hperm2.pairwise_iff (fun {a b} h => Ne.symm h)).mpr hne0
  have hlt : List.Pairwise (fun a b => (a : Nat × Bool).1 < b.1)
      (sortMismatches ms) :=
    List.Pairwise.imp₂ (fun a b h1 h2 => Nat.lt_of_le_of_ne h1 h2) hle hne
  exact @List.eq_of_perm_of_sorted _ _ hanti _ _ hperm2 hlt hsort

/-! Truncation: only the first `refBlob.length` bytes of the candidate are
ever inspected. -/

theorem chunkSlice_take (blob : List Nat) (L offset endIdx : Nat)
    (h : endIdx ≤ L) :
    chunkSlice (blob.take L) offset endIdx
      = chunkSlice blob offset endIdx := by
  rw [chunkSlice, chunkSlice, List.drop_take, List.take_take]
  congr 1
  omega

theorem seqVerdicts_take (refBlob corruptBlob : List Nat) (chunkSize : Nat)
    (hc : 0 < chunkSize) :
    seqVerdicts chunkSize refBlob (corruptBlob.take refBlob.length) 0
      = seqVerdicts chunkSize refBlob corruptBlob 0 := by
  rw [seqVerdicts_eq _ _ _ _ hc, seqVerdicts_eq _ _ _ _ hc]
  apply List.map_congr_left
  intro o ho
  rw [chunkSlice_take _ _ _ _ (Nat.min_le_right _ _)]

theorem parMismatches_take (refBlob corruptBlob : List Nat)
    (chunkSize : Nat) :
    parMismatches refBlob (corruptBlob.take refBlob.length) chunkSize
      = parMismatches refBlob corruptBlob chunkSize := by
  rw [parMismatches, parMismatches]
  apply List.map_congr_left
  intro o ho
  rw [chunkSlice_take _ _ _ _ (Nat.min_le_right _ _)]

theorem seq_take (refBlob corruptBlob : List Nat) (chunkSize : Nat)
    (hlen : refBlob.length ≤ corruptBlob.length) :
    findCorruptionsSequential refBlob corruptBlob chunkSize
      = findCorruptionsSequential refBlob (corruptBlob.take refBlob.length)
          chunkSize := by
  by_cases hc : chunkSize = 0
  · subst hc
    rw [findCorruptionsSequential_chunk0, findCorruptionsSequential_chunk0]
  · have hc2 : 0 < chunkSize := Nat.pos_of_ne_zero hc
    have hlen2 : refBlob.length
        ≤ (corruptBlob.take refBlob.length).length := by
      rw [List.length_take]
      omega
    rw [findCorruptionsSequential_eq_runMerge _ _ _ hlen,
      findCorruptionsSequential_eq_runMerge _ _ _ hlen2,
      seqVerdicts_take _ _ _ hc2]

theorem par_take (refBlob corruptBlob : List Nat) (chunkSize : Nat)
    (hlen : refBlob.length ≤ corruptBlob.length) :
    findCorruptionsParallel refBlob corruptBlob chunkSize
      = findCorruptionsParallel refBlob (corruptBlob.take refBlob.length)
          chunkSize := by
  by_cases hc : chunkSize = 0
  · subst hc
    rw [findCorruptionsParallel_chunk0, findCorruptionsParallel_chunk0]
  · have hc2 : 0 < chunkSize := Nat.pos_of_ne_zero hc
    have hlen2 : refBlob.length
        ≤ (corruptBlob.take refBlob.length).length := by
      rw [List.length_take]
      omega
    rw [findCorruptionsParallel_eq_runMerge _ _ _ hc2 hlen,
      findCorruptionsParallel_eq_runMerge _ _ _ hc2 hlen2,
      parTriples, parTriples, parMismatches_take]

/-! Claim theorems. -/

/-- Claim C1: for every pair of equal-length blobs and every positive
chunk size, the report returned by `find_corruptions_sequential` covers
exactly the differing chunks: a byte position lies inside some returned
record if and only if the chunk containing it differs between reference
and candidate, and the records are a merged decomposition of that set of
chunks: ordered, pairwise disjoint and non-adjacent, with positive
lengths. -/
theorem findCorruptionsSequential_exact_coverage
    (refBlob corruptBlob : List Nat) (chunkSize : Nat)
    (hc : 0 < chunkSize) (hlen : refBlob.length = corruptBlob.length) :
    ∃ report,
      findCorruptionsSequential refBlob corruptBlob chunkSize = some report
      ∧ (∀ p, coversPos report p ↔ (p < refBlob.length
          ∧ chunkDiffersAt refBlob corruptBlob chunkSize p))
      ∧ reportGapped report
      ∧ ∀ r ∈ report, 0 < r.length := by
  have hseq := findCorruptionsSequential_eq_runMerge refBlob corruptBlob
    chunkSize (le_of_eq hlen)
  have hga := report_gapped_aligned refBlob corruptBlob chunkSize _
    (Or.inl hseq)
  exact ⟨_, hseq,
    fun p => canonical_covers_iff refBlob corruptBlob chunkSize p hc,
    hga.1, fun r hr => (hga.2 r hr).1⟩

/-- Witness for C1 at a concrete input. -/
theorem findCorruptionsSequential_exact_coverage_witness :
    ∃ report,
      findCorruptionsSequential [0, 1] [0, 2] 1 = some report
      ∧ (∀ p, coversPos report p ↔ (p < [0, 1].length
          ∧ chunkDiffersAt [0, 1] [0, 2] 1 p))
      ∧ reportGapped report
      ∧ ∀ r ∈ report, 0 < r.length :=
  findCorruptionsSequential_exact_coverage [0, 1] [0, 2] 1 (by decide)
    (by decide)

/-- Claim C2: for any two same-length blobs and any positive chunk size,
the four variants return identical corruption reports. -/
theorem findCorruptions_variants_agree (refBlob corruptBlob : List Nat)
    (chunkSize : Nat) (hc : 0 < chunkSize)
    (hlen : refBlob.length = corruptBlob.length) :
    findCorruptionsSequential refBlob corruptBlob chunkSize
        = findCorruptionsParallel refBlob corruptBlob chunkSize
      ∧ findCorruptionsParallel refBlob corruptBlob chunkSize
        = findCorruptionsSimd refBlob corruptBlob chunkSize
      ∧ findCorruptionsSimd refBlob corruptBlob chunkSize
        = findCorruptionsSimdParallel refBlob corruptBlob chunkSize :=
  ⟨seq_eq_parallel refBlob corruptBlob chunkSize hc (le_of_eq hlen),
   (findCorruptionsSimd_eq_parallel refBlob corruptBlob chunkSize).symm,
   (findCorruptionsSimdParallel_eq_simd refBlob corruptBlob chunkSize).symm⟩

/-- Witness for C2 at a concrete input. -/
theorem findCorruptions_variants_agree_witness :
    findCorruptionsSequential [1, 2, 3] [1, 2, 4] 2
        = findCorruptionsParallel [1, 2, 3] [1, 2, 4] 2
      ∧ findCorruptionsParallel [1, 2, 3] [1, 2, 4] 2
        = findCorruptionsSimd [1, 2, 3] [1, 2, 4] 2
      ∧ findCorruptionsSimd [1, 2, 3] [1, 2, 4] 2
        = findCorruptionsSimdParallel [1, 2, 3] [1, 2, 4] 2 :=
  findCorruptions_variants_agree [1, 2, 3] [1, 2, 4] 2 (by decide) (by decide)

/-- Claim C3: for every lane count and every pair of byte slices `a` and
`b`, `chunks_equal_simd::<LANES>(a, b)` returns the same boolean as the
scalar slice equality `a == b`. -/
theorem chunksEqualSimd_agrees_with_scalar (lanes : Nat) (a b : List Nat) :
    chunksEqualSimd lanes a b = decide (a = b) :=
  chunksEqualSimd_eq_scalar lanes a b

/-- Claim C4: every report returned by any of the four variants is
strictly increasing in offset and no record is adjacent to a later one
(adjacent corrupted chunks are always merged into one record). -/
theorem findCorruptions_report_ordered_nonadjacent
    (refBlob corruptBlob : List Nat) (chunkSize : Nat)
    (report : List Corruption)
    (h : findCorruptionsSequential refBlob corruptBlob chunkSize = some report
       ∨ findCorruptionsParallel refBlob corruptBlob chunkSize = some report
       ∨ findCorruptionsSimd refBlob corruptBlob chunkSize = some report
       ∨ findCorruptionsSimdParallel refBlob corruptBlob chunkSize
           = some report) :
    List.Pairwise (fun a b => a.offset < b.offset
      ∧ a.offset + a.length ≠ b.offset) report := by
  have hga := report_gapped_aligned refBlob corruptBlob chunkSize report h
  have hg : List.Pairwise (fun a b => a.offset + a.length < b.offset)
      report := hga.1
  exact hg.imp (fun hab => ⟨by omega, by omega⟩)

/-- Witness for C4 at a concrete input. -/
theorem findCorruptions_report_ordered_nonadjacent_witness :
    List.Pairwise (fun a b => a.offset < b.offset
      ∧ a.offset + a.length ≠ b.offset) [(⟨0, 1⟩ : Corruption)] :=
  findCorruptions_report_ordered_nonadjacent [0, 1] [1, 1] 1 [⟨0, 1⟩]
    (Or.inl (by simp [findCorruptionsSequential, seqGo, pushCorruption]))

/-- Claim C5: in every report returned by any variant, each record starts
at a chunk-aligned offset and has positive length; every non-final record
has a length that is a multiple of the chunk size, and any record whose
length is not a multiple ends exactly at end of file. -/
theorem findCorruptions_report_aligned (refBlob corruptBlob : List Nat)
    (chunkSize : Nat) (report : List Corruption)
    (h : findCorruptionsSequential refBlob corruptBlob chunkSize = some report
       ∨ findCorruptionsParallel refBlob corruptBlob chunkSize = some report
       ∨ findCorruptionsSimd refBlob corruptBlob chunkSize = some report
       ∨ findCorruptionsSimdParallel refBlob corruptBlob chunkSize
           = some report) :
    ∀ i (hi : i < report.length),
      (report.get ⟨i, hi⟩).offset % chunkSize = 0
      ∧ 0 < (report.get ⟨i, hi⟩).length
      ∧ (i + 1 < report.length →
          (report.get ⟨i, hi⟩).length % chunkSize = 0)
      ∧ ((report.get ⟨i, hi⟩).length % chunkSize = 0
         ∨ (report.get ⟨i, hi⟩).offset + (report.get ⟨i, hi⟩).length
             = refBlob.length) := by
  rcases variant_some_cases refBlob corruptBlob chunkSize report h with
    hrep | ⟨hc, hlen, hrep⟩
  · subst hrep
    intro i hi
    simp at hi
  · have hga := report_gapped_aligned refBlob corruptBlob chunkSize report h
    have hg : List.Pairwise (fun a b => a.offset + a.length < b.offset)
        report := hga.1
    intro i hi
    obtain ⟨hpos, hoff, hle, hal⟩ :=
      hga.2 (report.get ⟨i, hi⟩) (List.get_mem report i hi)
    have hlendvd : i + 1 < report.length →
        chunkSize ∣ (report.get ⟨i, hi⟩).length := by
      intro hi1
      obtain ⟨hpos2, hoff2, hle2, hal2⟩ :=
        hga.2 (report.get ⟨i + 1, hi1⟩) (List.get_mem report (i + 1) hi1)
      have hgap := List.pairwise_iff_get.mp hg ⟨i, hi⟩ ⟨i + 1, hi1⟩
        (Fin.mk_lt_mk.mpr (by omega))
      have hendlt : (report.get ⟨i, hi⟩).offset
          + (report.get ⟨i, hi⟩).length < refBlob.length := by omega
      have hdvdend : chunkSize ∣ ((report.get ⟨i, hi⟩).offset
          + (report.get ⟨i, hi⟩).length) := by
        rcases hal with h2 | h2
        · exact h2
        · omega
      have hsub := Nat.dvd_sub' hdvdend hoff
      have heq : (report.get ⟨i, hi⟩).offset + (report.get ⟨i, hi⟩).length
          - (report.get ⟨i, hi⟩).offset = (report.get ⟨i, hi⟩).length := by
        omega
      rwa [heq] at hsub
    refine ⟨Nat.mod_eq_zero_of_dvd hoff, hpos, ?_, ?_⟩
    · intro hi1
      exact Nat.mod_eq_zero_of_dvd (hlendvd hi1)
    · rcases hal with h2 | h2
      · left
        have hsub := Nat.dvd_sub' h2 hoff
        have heq : (report.get ⟨i, hi⟩).offset + (report.get ⟨i, hi⟩).length
            - (report.get ⟨i, hi⟩).offset
            = (report.get ⟨i, hi⟩).length := by omega
        rw [heq] at hsub
        exact Nat.mod_eq_zero_of_dvd hsub
      · exact Or.inr h2

/-- Witness for C5 at a concrete input. -/
theorem findCorruptions_report_aligned_witness :
    ([(⟨0, 1⟩ : Corruption)].get ⟨0, Nat.zero_lt_one⟩).offset % 1 = 0
      ∧ 0 < ([(⟨0, 1⟩ : Corruption)].get ⟨0, Nat.zero_lt_one⟩).length
      ∧ (0 + 1 < [(⟨0, 1⟩ : Corruption)].length →
          ([(⟨0, 1⟩ : Corruption)].get ⟨0, Nat.zero_lt_one⟩).length % 1 = 0)
      ∧ (([(⟨0, 1⟩ : Corruption)].get ⟨0, Nat.zero_lt_one⟩).length % 1 = 0
         ∨ ([(⟨0, 1⟩ : Corruption)].get ⟨0, Nat.zero_lt_one⟩).offset
             + ([(⟨0, 1⟩ : Corruption)].get ⟨0, Nat.zero_lt_one⟩).length
             = [0, 1].length) :=
  findCorruptions_report_aligned [0, 1] [1, 1] 1 [⟨0, 1⟩]
    (Or.inl (by simp [findCorruptionsSequential, seqGo, pushCorruption]))
    0 Nat.zero_lt_one

/-- Counterexample to claim C6: with chunk_size = 0 the sequential
checker returns a report (the empty one) for two blobs that differ,
rather than rejecting the configuration with a fatal error. -/
theorem chunkSizeZero_sequential_returns_report :
    findCorruptionsSequential [0] [1] 0 = some [] :=
  findCorruptionsSequential_chunk0 [0] [1]

/-- Claim C6 (amended): with chunk_size = 0 the three mmap-based variants
panic in the `step_by(0)` assertion before any comparison work and return
no report, but `find_corruptions_sequential` breaks out of its read loop
immediately (a zero-sized read returns 0 bytes) and returns the empty
report without raising any error. -/
theorem chunkSizeZero_behavior (refBlob corruptBlob : List Nat) :
    findCorruptionsSequential refBlob corruptBlob 0 = some []
      ∧ findCorruptionsParallel refBlob corruptBlob 0 = none
      ∧ findCorruptionsSimd refBlob corruptBlob 0 = none
      ∧ findCorruptionsSimdParallel refBlob corruptBlob 0 = none :=
  ⟨findCorruptionsSequential_chunk0 refBlob corruptBlob,
   findCorruptionsParallel_chunk0 refBlob corruptBlob,
   by
     rw [findCorruptionsSimd_eq_parallel]
     exact findCorruptionsParallel_chunk0 refBlob corruptBlob,
   by
     rw [findCorruptionsSimdParallel_eq_simd, findCorruptionsSimd_eq_parallel]
     exact findCorruptionsParallel_chunk0 refBlob corruptBlob⟩

/-- Counterexample to claim C7: with a reference strictly longer than the
candidate, the sequential checker panics (returns no report) instead of
returning the report of the common prefix, which here would be the empty
report `some []`. -/
theorem longer_reference_errors :
    findCorruptionsSequential [0, 0] [0] 1 = none
      ∧ findCorruptionsSequential [0] [0] 1 = some [] :=
  ⟨by simp [findCorruptionsSequential, seqGo],
   by simp [findCorruptionsSequential, seqGo]⟩

/-- Claim C7 (amended): when the candidate is at least as long as the
reference, every variant compares exactly the common prefix of length
min(reference length, candidate length) = reference length, silently
ignoring the candidate's trailing bytes, and raises no error; but when
the reference is strictly longer than the candidate, every variant
panics (failed read_exact or out-of-range mmap slice) instead of
truncating to the shorter length. -/
theorem length_mismatch_truncation (refBlob corruptBlob : List Nat)
    (chunkSize : Nat) :
    (refBlob.length ≤ corruptBlob.length →
      (findCorruptionsSequential refBlob corruptBlob chunkSize
          = findCorruptionsSequential refBlob
              (corruptBlob.take refBlob.length) chunkSize
        ∧ findCorruptionsParallel refBlob corruptBlob chunkSize
          = findCorruptionsParallel refBlob
              (corruptBlob.take refBlob.length) chunkSize
        ∧ findCorruptionsSimd refBlob corruptBlob chunkSize
          = findCorruptionsSimd refBlob
              (corruptBlob.take refBlob.length) chunkSize
        ∧ findCorruptionsSimdParallel refBlob corruptBlob chunkSize
          = findCorruptionsSimdParallel refBlob
              (corruptBlob.take refBlob.length) chunkSize))
    ∧ (corruptBlob.length < refBlob.length → 0 < chunkSize →
        (findCorruptionsSequential refBlob corruptBlob chunkSize = none
          ∧ findCorruptionsParallel refBlob corruptBlob chunkSize = none
          ∧ findCorruptionsSimd refBlob corruptBlob chunkSize = none
          ∧ findCorruptionsSimdParallel refBlob corruptBlob chunkSize
              = none)) := by
  constructor
  · intro hlen
    refine ⟨seq_take refBlob corruptBlob chunkSize hlen,
      par_take refBlob corruptBlob chunkSize hlen, ?_, ?_⟩
    · rw [findCorruptionsSimd_eq_parallel, findCorruptionsSimd_eq_parallel]
      exact par_take refBlob corruptBlob chunkSize hlen
    · rw [findCorruptionsSimdParallel_eq_simd,
        findCorruptionsSimdParallel_eq_simd, findCorruptionsSimd_eq_parallel,
        findCorruptionsSimd_eq_parallel]
      exact par_take refBlob corruptBlob chunkSize hlen
  · intro hlt hc
    refine ⟨seqGo_none chunkSize refBlob corruptBlob 0 [] hc hlt,
      findCorruptionsParallel_none refBlob corruptBlob chunkSize hc hlt, ?_, ?_⟩
    · rw [findCorruptionsSimd_eq_parallel]
      exact findCorruptionsParallel_none refBlob corruptBlob chunkSize hc hlt
    · rw [findCorruptionsSimdParallel_eq_simd, findCorruptionsSimd_eq_parallel]
      exact findCorruptionsParallel_none refBlob corruptBlob chunkSize hc hlt

/-- Witness for the amended C7 at concrete inputs. -/
theorem length_mismatch_truncation_witness :
    findCorruptionsSequential [0] [0, 7] 1
        = findCorruptionsSequential [0] [0] 1
      ∧ findCorruptionsSequential [0, 0] [0] 1 = none := by
  constructor
  · exact ((length_mismatch_truncation [0] [0, 7] 1).1 (by decide)).1
  · exact ((length_mismatch_truncation [0, 0] [0] 1).2 (by decide)
      (by decide)).1

/-- Claim C8: for equal-length nonempty blobs and positive chunk size, if
every chunk differs between the two blobs then each variant returns
exactly one record spanning the whole file, offset 0 and length N. -/
theorem allDiff_single_record (refBlob corruptBlob : List Nat)
    (chunkSize : Nat) (hc : 0 < chunkSize)
    (hlen : refBlob.length = corruptBlob.length) (hN : 0 < refBlob.length)
    (hdiff : ∀ o ∈ chunkOffsets refBlob.length chunkSize,
      chunkSlice refBlob o (min (o + chunkSize) refBlob.length)
        ≠ chunkSlice corruptBlob o (min (o + chunkSize) refBlob.length)) :
    findCorruptionsSequential refBlob corruptBlob chunkSize
        = some [⟨0, refBlob.length⟩]
      ∧ findCorruptionsParallel refBlob corruptBlob chunkSize
        = some [⟨0, refBlob.length⟩]
      ∧ findCorruptionsSimd refBlob corruptBlob chunkSize
        = some [⟨0, refBlob.length⟩]
      ∧ findCorruptionsSimdParallel refBlob corruptBlob chunkSize
        = some [⟨0, refBlob.length⟩] := by
  have hle := le_of_eq hlen
  have hseq := findCorruptionsSequential_eq_runMerge refBlob corruptBlob
    chunkSize hle
  have hga := report_gapped_aligned refBlob corruptBlob chunkSize _
    (Or.inl hseq)
  have hcov : ∀ p, coversPos (finishMerge (runMerge ([], none)
      (seqVerdicts chunkSize refBlob corruptBlob 0))) p
        ↔ p < refBlob.length := by
    intro p
    rw [canonical_covers_iff _ _ _ _ hc]
    constructor
    · exact fun h2 => h2.1
    · intro hp
      refine ⟨hp, ?_⟩
      rw [chunkDiffersAt]
      exact hdiff _ (chunkStart_mem refBlob.length chunkSize p hc hp)
  have hrep := gapped_full_cover _ refBlob.length hN hga.1
    (fun r hr => (hga.2 r hr).1) hcov
  rw [hrep] at hseq
  have hpar : findCorruptionsParallel refBlob corruptBlob chunkSize
      = some [⟨0, refBlob.length⟩] := by
    rw [← seq_eq_parallel refBlob corruptBlob chunkSize hc hle]
    exact hseq
  refine ⟨hseq, hpar, ?_, ?_⟩
  · rw [findCorruptionsSimd_eq_parallel]
    exact hpar
  · rw [findCorruptionsSimdParallel_eq_simd, findCorruptionsSimd_eq_parallel]
    exact hpar

/-- Witness for C8 at a concrete input. -/
theorem allDiff_single_record_witness :
    findCorruptionsSequential [5, 5, 5] [6, 6, 6] 2 = some [⟨0, 3⟩]
      ∧ findCorruptionsParallel [5, 5, 5] [6, 6, 6] 2 = some [⟨0, 3⟩]
      ∧ findCorruptionsSimd [5, 5, 5] [6, 6, 6] 2 = some [⟨0, 3⟩]
      ∧ findCorruptionsSimdParallel [5, 5, 5] [6, 6, 6] 2 = some [⟨0, 3⟩] :=
  allDiff_single_record [5, 5, 5] [6, 6, 6] 2 (by decide) (by decide)
    (by decide) (by decide)

/-- Claim C9: the comparison is deterministic and, in particular, the
parallel variants do not depend on the order in which workers complete:
feeding the sort-then-merge stage any permutation of the collected
per-chunk verdicts (any completion order) produces the very report the
parallel variants return for the in-order collection. -/
theorem findCorruptionsParallel_order_invariant
    (refBlob corruptBlob : List Nat) (chunkSize : Nat)
    (collected : List (Nat × Bool)) (hc : 0 < chunkSize)
    (hperm : collected.Perm (parMismatches refBlob corruptBlob chunkSize)) :
    mergeCollected refBlob.length chunkSize collected
        = mergeCollected refBlob.length chunkSize
            (parMismatches refBlob corruptBlob chunkSize)
      ∧ (refBlob.length ≤ corruptBlob.length →
          findCorruptionsParallel refBlob corruptBlob chunkSize
              = some (mergeCollected refBlob.length chunkSize collected)
            ∧ findCorruptionsSimdParallel refBlob corruptBlob chunkSize
              = some (mergeCollected refBlob.length chunkSize collected)) := by
  have hsorted := parMismatches_sorted refBlob corruptBlob chunkSize hc
  have h1 : sortMismatches collected
      = parMismatches refBlob corruptBlob chunkSize :=
    sortMismatches_perm_eq _ _ hperm hsorted
  have h2 : sortMismatches (parMismatches refBlob corruptBlob chunkSize)
      = parMismatches refBlob corruptBlob chunkSize :=
    sortMismatches_eq_self _ hsorted
  have hmc : mergeCollected refBlob.length chunkSize collected
      = mergeCollected refBlob.length chunkSize
          (parMismatches refBlob corruptBlob chunkSize) := by
    rw [mergeCollected, mergeCollected, h1, h2]
  refine ⟨hmc, ?_⟩
  intro hlen
  have hp : findCorruptionsParallel refBlob corruptBlob chunkSize
      = some (mergeCollected refBlob.length chunkSize
          (parMismatches refBlob corruptBlob chunkSize)) := by
    rw [findCorruptionsParallel, if_neg (Nat.pos_iff_ne_zero.mp hc),
      collect_parMismatches refBlob corruptBlob chunkSize hlen,
      Option.map_some']
  rw [hmc]
  refine ⟨hp, ?_⟩
  rw [findCorruptionsSimdParallel_eq_simd, findCorruptionsSimd_eq_parallel]
  exact hp

/-- Witness for C9 at a concrete input: the reversed completion order. -/
theorem findCorruptionsParallel_order_invariant_witness :
    mergeCollected [0, 1].length 1 [(1, true), (0, false)]
        = mergeCollected [0, 1].length 1 (parMismatches [0, 1] [0, 2] 1) :=
  (findCorruptionsParallel_order_invariant [0, 1] [0, 2] 1
    [(1, true), (0, false)] (by decide) (by decide)).1
